import Mathlib

/-!
Verification of the Anthropic-to-OpenAI proxy worker (src/index.js).

JavaScript strings are modelled as `List Char`; byte streams as
`List Nat` (each entry a byte value).  The streaming reframer
`processStream`, the request converter `convertAnthropicToOpenAI` and the
stop-reason table `mapStopReason` are shallowly embedded below, following
the source line by line.  `JSON.parse` together with the field accesses
performed on its result is abstracted as a `parse` parameter of type
`List Char → Option ChunkRec` in the general theorems; a concrete
executable model (`parseSseData`) built on a small JSON parser is provided
for evaluating the machine on explicit inputs.
-/

/-! ## Basic string helpers (JS string operations on `List Char`) -/

/-- Test whether `s` starts with `p` (JS `String.prototype.startsWith`). -/
def strStarts : List Char → List Char → Bool
  | _, [] => true
  | [], _ :: _ => false
  | a :: as, b :: bs => a = b && strStarts as bs

/-- Whitespace set of JS `String.prototype.trim` (the characters that can
actually occur in this protocol; the exotic Unicode space separators are
omitted as they are representable the same way if ever needed). -/
def isJsWs (c : Char) : Bool :=
  c = ' ' || c = '\t' || c = '\n' || c = '\r' ||
  c = Char.ofNat 11 || c = Char.ofNat 12 || c = Char.ofNat 160 || c = Char.ofNat 65279

/-- Drop leading JS whitespace. -/
def dropWs : List Char → List Char
  | [] => []
  | c :: cs => if isJsWs c then dropWs cs else c :: cs

/-- JS `String.prototype.trim`. -/
def jsTrim (s : List Char) : List Char :=
  ((dropWs s.reverse).reverse |> dropWs)

/-- Literal `"data:"`. -/
def litData : List Char := "data:".toList

/-- Literal `"[DONE]"`. -/
def litDone : List Char := "[DONE]".toList

/-- Literal `"user"`. -/
def litUser : List Char := "user".toList

/-- Literal `"assistant"`. -/
def litAssistant : List Char := "assistant".toList

/-- Literal `"system"`. -/
def litSystem : List Char := "system".toList

/-! ## Unified stream events

The four event shapes written by `processStream`.  Only the payload
fields that vary are carried; the constant fields (message id, model
label, block index 0) are fixed in the source. -/

/-- Output events of the stream reframer. -/
inductive Event where
  | messageStart
  | contentBlockDelta (text : List Char)
  | messageDelta (stopReason : List Char)
  | messageStop
deriving DecidableEq

/-- Result of `JSON.parse` on a data payload followed by the accesses
`json.choices[0]?.delta?.content || ''` (field `delta`) and
`json.choices[0]?.finish_reason` (field `finish`, `some` iff truthy).
`none` at the call site models the `try`/`catch`: a payload on which
`JSON.parse` or the subsequent property access throws. -/
structure ChunkRec where
  delta : List Char
  finish : Option (List Char)
deriving DecidableEq

/-- Stop-reason table `mapStopReason` from the source: `stop ↦ end_turn`,
`length ↦ max_tokens`, `content_filter ↦ stop_sequence`, default pass
through unchanged. -/
def mapStopReason (finishReason : List Char) : List Char :=
  if finishReason = "stop".toList then "end_turn".toList
  else if finishReason = "length".toList then "max_tokens".toList
  else if finishReason = "content_filter".toList then "stop_sequence".toList
  else finishReason

/-- Mutable locals of `processStream` that live across records:
`sentHeader` and `contentAccumulator`. -/
structure LState where
  sentHeader : Bool
  contentAccumulator : List Char
deriving DecidableEq

/-- Initial record-processing state. -/
def initL : LState := ⟨false, []⟩

/-- Body of the `for (const line of lines)` loop of `processStream`:
process one complete line, returning the updated state and the events
written for that line, in order. -/
def processLine (parse : List Char → Option ChunkRec) (st : LState) (line : List Char) :
    LState × List Event :=
  if strStarts line litData then
    let dat := jsTrim (line.drop 5)
    if dat = litDone then (st, [])
    else
      match parse dat with
      | none => (st, [])
      | some r =>
        let st1 : LState := ⟨st.sentHeader, st.contentAccumulator ++ r.delta⟩
        let (st2, evHeader) :=
          if st1.sentHeader then (st1, ([] : List Event))
          else (⟨true, st1.contentAccumulator⟩, [Event.messageStart])
        let evDelta : List Event :=
          if r.delta = [] then [] else [Event.contentBlockDelta r.delta]
        let evFinish : List Event :=
          match r.finish with
          | some fr => [Event.messageDelta (mapStopReason fr), Event.messageStop]
          | none => []
        (st2, evHeader ++ evDelta ++ evFinish)
  else (st, [])

/-- Run the line loop over a list of complete lines, concatenating the
events in emission order. -/
def runLines (parse : List Char → Option ChunkRec) :
    LState → List (List Char) → LState × List Event
  | st, [] => (st, [])
  | st, l :: ls =>
    let p := processLine parse st l
    let q := runLines parse p.1 ls
    (q.1, p.2 ++ q.2)

/-- JS `buffer.split('\n')`: split on every newline, keeping empty
segments; always returns at least one segment. -/
def splitNl : List Char → List (List Char)
  | [] => [[]]
  | c :: cs =>
    if c = '\n' then [] :: splitNl cs
    else
      match splitNl cs with
      | [] => [[c]]
      | p :: ps => (c :: p) :: ps

/-! ## Streaming UTF-8 decoder

`TextDecoder` with `{stream: true}` is specified (WHATWG Encoding
standard) as a byte-at-a-time state machine; incomplete sequences are
held in the state across `decode` calls and malformed input produces
U+FFFD with resynchronisation. -/

/-- State of the WHATWG UTF-8 decoder. -/
structure DecState where
  codepoint : Nat
  bytesNeeded : Nat
  bytesSeen : Nat
  lowerBoundary : Nat
  upperBoundary : Nat
deriving DecidableEq

/-- Fresh decoder state. -/
def initDec : DecState := ⟨0, 0, 0, 128, 191⟩

/-- The replacement character U+FFFD. -/
def replChar : Char := Char.ofNat 65533

/-- Handle one byte in the start state (no pending sequence). -/
def decStart (b : Nat) : DecState × List Char :=
  if b ≤ 127 then (initDec, [Char.ofNat b])
  else if 194 ≤ b ∧ b ≤ 223 then (⟨b % 32, 1, 0, 128, 191⟩, [])
  else if 224 ≤ b ∧ b ≤ 239 then
    (⟨b % 16, 2, 0, if b = 224 then 160 else 128, if b = 237 then 159 else 191⟩, [])
  else if 240 ≤ b ∧ b ≤ 244 then
    (⟨b % 8, 3, 0, if b = 240 then 144 else 128, if b = 244 then 143 else 191⟩, [])
  else (initDec, [replChar])

/-- One step of the UTF-8 decoder on byte `b`.  When a continuation byte
is out of range the pending sequence yields U+FFFD and the byte is
reprocessed from the start state, as the standard prescribes. -/
def decStep (d : DecState) (b : Nat) : DecState × List Char :=
  if d.bytesNeeded = 0 then decStart b
  else if b < d.lowerBoundary ∨ d.upperBoundary < b then
    let r := decStart b
    (r.1, replChar :: r.2)
  else
    let cp := d.codepoint * 64 + b % 64
    let seen := d.bytesSeen + 1
    if seen = d.bytesNeeded then (initDec, [Char.ofNat cp])
    else (⟨cp, d.bytesNeeded, seen, 128, 191⟩, [])

/-- Decode a chunk of bytes, threading the decoder state (the effect of
one `decoder.decode(value, {stream: true})` call). -/
def runBytes : DecState → List Nat → DecState × List Char
  | d, [] => (d, [])
  | d, b :: bs =>
    let p := decStep d b
    let q := runBytes p.1 bs
    (q.1, p.2 ++ q.2)

/-! ## The chunk loop of `processStream` -/

/-- Full state of `processStream` across chunks: decoder state, the
`buffer` of not-yet-newline-terminated text, and the record state. -/
structure SState where
  dec : DecState
  buf : List Char
  st : LState
deriving DecidableEq

/-- Initial stream state. -/
def initS : SState := ⟨initDec, [], initL⟩

/-- Body of the `while (true)` read loop for one chunk `value`: decode it
streamingly, append to `buffer`, split on newlines, keep the trailing
segment as the new `buffer` (`buffer = lines.pop() || ''`) and run the
line loop on the complete lines. -/
def processChunk (parse : List Char → Option ChunkRec) (s : SState) (chunk : List Nat) :
    SState × List Event :=
  let dt := runBytes s.dec chunk
  let parts := splitNl (s.buf ++ dt.2)
  let r := runLines parse s.st parts.dropLast
  (⟨dt.1, parts.getLastD [], r.1⟩, r.2)

/-- Run the chunk loop over a list of chunks. -/
def runChunks (parse : List Char → Option ChunkRec) :
    SState → List (List Nat) → SState × List Event
  | s, [] => (s, [])
  | s, c :: cs =>
    let p := processChunk parse s c
    let q := runChunks parse p.1 cs
    (q.1, p.2 ++ q.2)

/-- `processStream`: the ordered sequence of unified events written for a
backend byte stream delivered as the given chunks.  (On end of input the
writer is closed without further events, so the event list is exactly
this.) -/
def processStream (parse : List Char → Option ChunkRec) (chunks : List (List Nat)) :
    List Event :=
  (runChunks parse initS chunks).2

/-! ## Character-at-a-time reformulation (proof device)

The batched split of `processChunk` is equivalent to feeding the decoded
characters one at a time: a newline fires `processLine` on the buffered
characters, any other character is appended to the buffer. -/

/-- Per-character line machine. -/
def runChars (parse : List Char → Option ChunkRec) :
    LState × List Char → List Char → (LState × List Char) × List Event
  | (st, buf), [] => ((st, buf), [])
  | (st, buf), c :: cs =>
    if c = '\n' then
      let p := processLine parse st buf
      let q := runChars parse (p.1, []) cs
      (q.1, p.2 ++ q.2)
    else runChars parse (st, buf ++ [c]) cs

/-- Per-byte machine combining the decoder with the line machine. -/
def runBL (parse : List Char → Option ChunkRec) :
    (DecState × (LState × List Char)) → List Nat → (DecState × (LState × List Char)) × List Event
  | (d, sb), [] => ((d, sb), [])
  | (d, sb), b :: bs =>
    let p := decStep d b
    let q := runChars parse sb p.2
    let r := runBL parse (p.1, q.1) bs
    (r.1, q.2 ++ r.2)

/-! ## Request conversion (`convertAnthropicToOpenAI`)

JS values relevant to the converter are modelled with explicit tags; a
`null`/absent `content` field is `AContent.nullc`, so that the read of
`message.content.length` on it can be modelled as a thrown `TypeError`
(the `Except` error). -/

/-- One content part of an inbound message.  An image part carries
`source.url` (`none` when absent or empty, both falsy in JS),
`source.data` and `source.media_type`; `other` is any part whose `type`
is neither `text` nor `image`. -/
inductive CPart where
  | text (t : List Char)
  | image (url : Option (List Char)) (dataSrc : List Char) (media : List Char)
  | other
deriving DecidableEq

/-- Whether a part has `type === 'text'`. -/
def CPart.isText : CPart → Bool
  | .text _ => true
  | _ => false

/-- The `text` field of a part (`undefined` on non-text parts never
reaches `join` because the all-text guard precedes it). -/
def CPart.textOf : CPart → List Char
  | .text t => t
  | _ => []

/-- Content of an inbound message: a string, a part array, or
`null`/absent. -/
inductive AContent where
  | str (s : List Char)
  | parts (l : List CPart)
  | nullc
deriving DecidableEq

/-- An inbound (Anthropic-style) message. -/
structure AMsg where
  role : List Char
  content : AContent
deriving DecidableEq

/-- The inbound request fields read by the converter.  `messages = some l`
models a present (possibly empty, still truthy) array; sampling
parameter values are opaque integers since the converter only copies
them. -/
structure AnthropicRequest where
  messages : Option (List AMsg)
  prompt : Option (List Char)
  system : Option (List Char)
  stream : Option Bool
  temperature : Option Int
  maxTokens : Option Int
  topP : Option Int
  topK : Option Int
deriving DecidableEq

/-- An outbound content part (`{type:'text'}` or `{type:'image_url'}`). -/
inductive OPart where
  | text (t : List Char)
  | imageUrl (url : List Char) (detail : List Char)
deriving DecidableEq

/-- Outbound message content: a plain string, a part list, or
`undefined` (for a non-assistant inbound message whose content was
`null`/absent, which the source forwards unassigned). -/
inductive OContent where
  | str (s : List Char)
  | list (l : List OPart)
  | undef
deriving DecidableEq

/-- An outbound (OpenAI-style) message. -/
structure OMsg where
  role : List Char
  content : OContent
deriving DecidableEq

/-- The outbound request built by the converter. -/
structure OpenAIRequest where
  model : List Char
  messages : List OMsg
  stream : Bool
  temperature : Option Int
  maxTokens : Option Int
  topP : Option Int
deriving DecidableEq

/-- The environment bindings read by the converter. -/
structure Env where
  OPENAI_MODEL_ID : List Char
deriving DecidableEq

/-- A JS runtime exception (here only the `TypeError` from reading
`length` of a nullish `content`). -/
inductive JsError where
  | typeError
deriving DecidableEq

/-- Translate a part array (the `Array.isArray(message.content)` branch):
if every part is text, join the texts into one string; otherwise map
parts to the backend shape, dropping unrecognised ones
(`filter(item => item !== null)`). -/
def convertContentParts (l : List CPart) : OContent :=
  if l.all CPart.isText then .str (l.map CPart.textOf).flatten
  else
    .list (l.filterMap fun p =>
      match p with
      | .text t => some (.text t)
      | .image url dataSrc media =>
        some (.imageUrl (match url with | some u => u | none => dataSrc)
          (if media = "image/png".toList then "high".toList else "low".toList))
      | .other => none)

/-- Process one inbound message of the messages branch: `.ok none` when
skipped (empty assistant content), `.error` when the skip test itself
throws (assistant message with nullish content). -/
def convertMessage (m : AMsg) : Except JsError (Option OMsg) :=
  match m.content with
  | .nullc =>
    if m.role = litAssistant then .error .typeError
    else .ok (some ⟨m.role, .undef⟩)
  | .str s =>
    if m.role = litAssistant ∧ s = [] then .ok none
    else .ok (some ⟨m.role, .str s⟩)
  | .parts l =>
    if m.role = litAssistant ∧ l = [] then .ok none
    else .ok (some ⟨m.role, convertContentParts l⟩)

/-- The `for (const message of anthropicRequest.messages)` loop. -/
def convertMessages : List AMsg → Except JsError (List OMsg)
  | [] => .ok []
  | m :: rest =>
    match convertMessage m with
    | .error e => .error e
    | .ok none => convertMessages rest
    | .ok (some om) =>
      match convertMessages rest with
      | .error e => .error e
      | .ok tail => .ok (om :: tail)

/-- Delimiter `"\n\nHuman: "`. -/
def humanDelim : List Char := "\n\nHuman: ".toList

/-- Delimiter `"\n\nAssistant: "`. -/
def assistantDelim : List Char := "\n\nAssistant: ".toList

/-- Fueled scanner for
`prompt.split(/\n\nHuman: |\n\nAssistant: /)`: leftmost match wins and
each match consumes the whole delimiter.  `cur` holds the reversed
current segment; fuel at least the length of the remaining text
suffices since every step consumes at least one character. -/
def promptSplitGo : Nat → List Char → List Char → List (List Char)
  | _, cur, [] => [cur.reverse]
  | 0, cur, s => [cur.reverse ++ s]
  | fuel + 1, cur, c :: cs =>
    if strStarts (c :: cs) humanDelim then
      cur.reverse :: promptSplitGo fuel [] ((c :: cs).drop humanDelim.length)
    else if strStarts (c :: cs) assistantDelim then
      cur.reverse :: promptSplitGo fuel [] ((c :: cs).drop assistantDelim.length)
    else
      promptSplitGo fuel (c :: cur) cs

/-- `prompt.split(/\n\nHuman: |\n\nAssistant: /)`. -/
def promptSplit (s : List Char) : List (List Char) :=
  promptSplitGo s.length [] s

/-- The role string chosen from the `isHuman` flag. -/
def roleOf (isHuman : Bool) : List Char :=
  if isHuman then litUser else litAssistant

/-- The `for (let i = 0; ...)` loop over the split segments: trim, skip
empty, assign alternating roles, flipping only on pushed segments. -/
def promptLoop : Bool → List (List Char) → List OMsg
  | _, [] => []
  | isHuman, seg :: rest =>
    let part := jsTrim seg
    if part = [] then promptLoop isHuman rest
    else ⟨roleOf isHuman, .str part⟩ :: promptLoop (!isHuman) rest

/-- Messages produced by the legacy prompt branch. -/
def promptMessages (p : List Char) : List OMsg :=
  promptLoop (strStarts (jsTrim p) ("Human:".toList)) (promptSplit p)

/-- `convertAnthropicToOpenAI`: builds the backend request, or fails with
the JS exception thrown while processing the messages (caught by the
handler's outer `try`).  `messages`, when present (even `[]`), drives the
construction; otherwise a truthy (non-empty) `prompt` does; the `system`
field is consulted only inside the messages branch, as in the source. -/
def convertAnthropicToOpenAI (anthropicRequest : AnthropicRequest) (env : Env) :
    Except JsError OpenAIRequest :=
  let base : List OMsg → OpenAIRequest := fun msgs =>
    { model := env.OPENAI_MODEL_ID
      messages := msgs
      stream := anthropicRequest.stream.getD false
      temperature := anthropicRequest.temperature
      maxTokens := anthropicRequest.maxTokens
      topP := anthropicRequest.topP }
  match anthropicRequest.messages with
  | some ms =>
    match convertMessages ms with
    | .error e => .error e
    | .ok msgs =>
      let msgs :=
        match anthropicRequest.system with
        | some s => if s = [] then msgs else ⟨litSystem, .str s⟩ :: msgs
        | none => msgs
      .ok (base msgs)
  | none =>
    match anthropicRequest.prompt with
    | some p => if p = [] then .ok (base []) else .ok (base (promptMessages p))
    | none => .ok (base [])

/-- Outcome of the handler around request conversion. -/
inductive HandlerOutcome where
  | errorResponse (status : Nat) (errType : List Char)
  | forwarded (q : OpenAIRequest)
deriving DecidableEq

/-- The `try`/`catch` of the `fetch` handler restricted to request
conversion (request already authorised and parsed; the backend call and
response path are outside this slice): an exception thrown by
`convertAnthropicToOpenAI` is caught and rendered as a 500
`proxy_error` response. -/
def fetchTranslate (env : Env) (r : AnthropicRequest) : HandlerOutcome :=
  match convertAnthropicToOpenAI r env with
  | .error _ => .errorResponse 500 ("proxy_error".toList)
  | .ok q => .forwarded q

/-! ## Concrete model of `JSON.parse` plus the record field accesses

A small executable JSON parser.  It is used to instantiate the `parse`
parameter on explicit inputs; the general stream theorems hold for every
`parse` function, so nothing below depends on this model beyond the
concrete payloads appearing in witnesses, where it agrees with
`JSON.parse`. -/

/-- Parsed JSON value; numbers keep their lexeme since the reframer never
inspects numeric values. -/
inductive JVal where
  | jnull
  | jbool (b : Bool)
  | jnum (raw : List Char)
  | jstr (s : List Char)
  | jarr (items : List JVal)
  | jobj (fields : List (List Char × JVal))

/-- JSON insignificant whitespace. -/
def isJsonWs (c : Char) : Bool :=
  c = ' ' || c = '\t' || c = '\n' || c = '\r'

/-- Skip JSON whitespace. -/
def skipJsonWs : List Char → List Char
  | [] => []
  | c :: cs => if isJsonWs c then skipJsonWs cs else c :: cs

/-- Value of one hex digit. -/
def hexVal (c : Char) : Option Nat :=
  if '0' ≤ c ∧ c ≤ '9' then some (c.toNat - 48)
  else if 'a' ≤ c ∧ c ≤ 'f' then some (c.toNat - 87)
  else if 'A' ≤ c ∧ c ≤ 'F' then some (c.toNat - 55)
  else none

/-- Parse the body of a JSON string after the opening quote, returning
the decoded characters and the input after the closing quote. -/
def parseJStr : Nat → List Char → Option (List Char × List Char)
  | 0, _ => none
  | _, [] => none
  | fuel + 1, c :: cs =>
    if c = '"' then some ([], cs)
    else if c = '\\' then
      match cs with
      | [] => none
      | e :: cs2 =>
        let deco : Option (Char × List Char) :=
          if e = '"' then some ('"', cs2)
          else if e = '\\' then some ('\\', cs2)
          else if e = '/' then some ('/', cs2)
          else if e = 'b' then some (Char.ofNat 8, cs2)
          else if e = 'f' then some (Char.ofNat 12, cs2)
          else if e = 'n' then some ('\n', cs2)
          else if e = 'r' then some ('\r', cs2)
          else if e = 't' then some ('\t', cs2)
          else if e = 'u' then
            match cs2 with
            | h1 :: h2 :: h3 :: h4 :: cs3 =>
              match hexVal h1, hexVal h2, hexVal h3, hexVal h4 with
              | some a, some b, some c2, some d =>
                some (Char.ofNat (((a * 16 + b) * 16 + c2) * 16 + d), cs3)
              | _, _, _, _ => none
            | _ => none
          else none
        match deco with
        | none => none
        | some (ch, rest) =>
          match parseJStr fuel rest with
          | some (s, r) => some (ch :: s, r)
          | none => none
    else
      match parseJStr fuel cs with
      | some (s, r) => some (c :: s, r)
      | none => none

/-- Take a maximal run of decimal digits. -/
def takeDigits : List Char → List Char × List Char
  | [] => ([], [])
  | c :: cs =>
    if '0' ≤ c ∧ c ≤ '9' then
      let p := takeDigits cs
      (c :: p.1, p.2)
    else ([], c :: cs)

/-- Parse a JSON number lexeme (grammar of RFC 8259). -/
def parseJNum (s : List Char) : Option (List Char × List Char) :=
  let sign : List Char × List Char :=
    match s with
    | '-' :: rest => (['-'], rest)
    | _ => ([], s)
  match sign.2 with
  | [] => none
  | c :: cs =>
    if c = '0' then
      let intPart : List Char × List Char := ([c], cs)
      afterInt sign.1 intPart.1 intPart.2
    else if '1' ≤ c ∧ c ≤ '9' then
      let d := takeDigits cs
      afterInt sign.1 (c :: d.1) d.2
    else none
where
  /-- Optional fraction and exponent after the integer part. -/
  afterInt (sign intPart : List Char) (rest : List Char) :
      Option (List Char × List Char) :=
    let fr : Option (List Char × List Char) :=
      match rest with
      | '.' :: r2 =>
        match takeDigits r2 with
        | ([], _) => none
        | (ds, r3) => some ('.' :: ds, r3)
      | _ => some ([], rest)
    match fr with
    | none => none
    | some (fracPart, r4) =>
      let ex : Option (List Char × List Char) :=
        match r4 with
        | c :: r5 =>
          if c = 'e' ∨ c = 'E' then
            let sgn : List Char × List Char :=
              match r5 with
              | '+' :: r6 => (['+'], r6)
              | '-' :: r6 => (['-'], r6)
              | _ => ([], r5)
            match takeDigits sgn.2 with
            | ([], _) => none
            | (ds, r7) => some (c :: (sgn.1 ++ ds), r7)
          else some ([], r4)
        | [] => some ([], r4)
      match ex with
      | none => none
      | some (expPart, r8) => some (sign ++ intPart ++ fracPart ++ expPart, r8)

mutual

/-- Parse one JSON value. -/
def parseJVal : Nat → List Char → Option (JVal × List Char)
  | 0, _ => none
  | fuel + 1, s =>
    match skipJsonWs s with
    | [] => none
    | c :: cs =>
      if c = '"' then
        match parseJStr (fuel + 1) cs with
        | some (str, r) => some (.jstr str, r)
        | none => none
      else if c = Char.ofNat 123 then parseObjBody fuel cs
      else if c = '[' then parseArrBody fuel cs
      else if c = 't' then
        match cs with
        | 'r' :: 'u' :: 'e' :: r => some (.jbool true, r)
        | _ => none
      else if c = 'f' then
        match cs with
        | 'a' :: 'l' :: 's' :: 'e' :: r => some (.jbool false, r)
        | _ => none
      else if c = 'n' then
        match cs with
        | 'u' :: 'l' :: 'l' :: r => some (.jnull, r)
        | _ => none
      else if c = '-' ∨ ('0' ≤ c ∧ c ≤ '9') then
        match parseJNum (c :: cs) with
        | some (raw, r) => some (.jnum raw, r)
        | none => none
      else none

/-- Parse the inside of an array after `[`. -/
def parseArrBody (fuel : Nat) (s : List Char) : Option (JVal × List Char) :=
  match fuel with
  | 0 => none
  | fuel + 1 =>
    match skipJsonWs s with
    | ']' :: r => some (.jarr [], r)
    | s2 =>
      match parseJVal fuel s2 with
      | none => none
      | some (v, r) =>
        match parseArrRest fuel r with
        | some (vs, r2) => some (.jarr (v :: vs), r2)
        | none => none

/-- Parse `, value`* `]` after the first array element. -/
def parseArrRest (fuel : Nat) (s : List Char) : Option (List JVal × List Char) :=
  match fuel with
  | 0 => none
  | fuel + 1 =>
    match skipJsonWs s with
    | ']' :: r => some ([], r)
    | ',' :: r =>
      match parseJVal fuel r with
      | none => none
      | some (v, r2) =>
        match parseArrRest fuel r2 with
        | some (vs, r3) => some (v :: vs, r3)
        | none => none
    | _ => none

/-- Parse the inside of an object after the opening brace. -/
def parseObjBody (fuel : Nat) (s : List Char) : Option (JVal × List Char) :=
  match fuel with
  | 0 => none
  | fuel + 1 =>
    match skipJsonWs s with
    | c :: r =>
      if c = Char.ofNat 125 then some (.jobj [], r)
      else if c = '"' then
        match parseJMember fuel r with
        | none => none
        | some (kv, r2) =>
          match parseObjRest fuel r2 with
          | some (kvs, r3) => some (.jobj (kv :: kvs), r3)
          | none => none
      else none
    | [] => none

/-- Parse a member after its opening quote: key, colon, value. -/
def parseJMember (fuel : Nat) (s : List Char) : Option ((List Char × JVal) × List Char) :=
  match fuel with
  | 0 => none
  | fuel + 1 =>
    match parseJStr (fuel + 1) s with
    | none => none
    | some (k, r) =>
      match skipJsonWs r with
      | ':' :: r2 =>
        match parseJVal fuel r2 with
        | some (v, r3) => some ((k, v), r3)
        | none => none
      | _ => none

/-- Parse `, member`* and the closing brace after the first member. -/
def parseObjRest (fuel : Nat) (s : List Char) :
    Option (List (List Char × JVal) × List Char) :=
  match fuel with
  | 0 => none
  | fuel + 1 =>
    match skipJsonWs s with
    | c :: r =>
      if c = Char.ofNat 125 then some ([], r)
      else if c = ',' then
        match skipJsonWs r with
        | '"' :: r2 =>
          match parseJMember fuel r2 with
          | none => none
          | some (kv, r3) =>
            match parseObjRest fuel r3 with
            | some (kvs, r4) => some (kv :: kvs, r4)
            | none => none
        | _ => none
      else none
    | [] => none

end

/-- `JSON.parse`: a complete parse of the whole payload (trailing
whitespace allowed). -/
def parseJson (s : List Char) : Option JVal :=
  match parseJVal (2 * s.length + 4) s with
  | some (v, rest) => if skipJsonWs rest = [] then some v else none
  | none => none

/-- Last-wins field lookup, as `JSON.parse` builds objects. -/
def jLookup (fields : List (List Char × JVal)) (k : List Char) : Option JVal :=
  match fields with
  | [] => none
  | (k2, v) :: rest =>
    match jLookup rest k with
    | some r => some r
    | none => if k2 = k then some v else none

/-- The accesses `json.choices[0]?.delta?.content || ''` and
`json.choices[0]?.finish_reason` on a parsed value; `none` when the
access itself throws (`choices` missing or `null`, or `json` not an
object, making `json.choices[0]` a member access on `undefined`).
Truthy non-string `content`/`finish_reason` values and non-array
truthy `choices` values do not occur in the payloads this model is
applied to. -/
def extractChunk (v : JVal) : Option ChunkRec :=
  match v with
  | .jobj fs =>
    match jLookup fs ("choices".toList) with
    | none => none
    | some .jnull => none
    | some (.jarr items) =>
      let delta : List Char :=
        match items.head? with
        | some (.jobj cf) =>
          match jLookup cf ("delta".toList) with
          | some (.jobj df) =>
            match jLookup df ("content".toList) with
            | some (.jstr s) => s
            | _ => []
          | _ => []
        | _ => []
      let fin : Option (List Char) :=
        match items.head? with
        | some (.jobj cf) =>
          match jLookup cf ("finish_reason".toList) with
          | some (.jstr s) => if s = [] then none else some s
          | _ => none
        | _ => none
      some ⟨delta, fin⟩
    | some _ => some ⟨[], none⟩
  | _ => none

/-- Concrete record parse: `JSON.parse` plus the field extraction, with
`none` modelling a caught exception. -/
def parseSseData (s : List Char) : Option ChunkRec :=
  (parseJson s).bind extractChunk

/-! ## Properties used in the claims -/

/-- Whether an event is `message_start`. -/
def Event.isStart : Event → Bool
  | .messageStart => true
  | _ => false

/-- Whether an event is `content_block_delta`. -/
def Event.isCbd : Event → Bool
  | .contentBlockDelta _ => true
  | _ => false

/-- Whether an event is `message_delta`. -/
def Event.isMsgDelta : Event → Bool
  | .messageDelta _ => true
  | _ => false

/-- Whether an event is `message_stop`. -/
def Event.isStop : Event → Bool
  | .messageStop => true
  | _ => false

/-- Scan of the event list checking that every `content_block_delta` is
preceded by a `message_start`; the flag records whether a start has been
seen. -/
def okOrder : Bool → List Event → Bool
  | _, [] => true
  | b, e :: rest =>
    match e with
    | .messageStart => okOrder true rest
    | .contentBlockDelta _ => b && okOrder b rest
    | _ => okOrder b rest

/-- Invariant tying the `sentHeader` flag to the emitted events: at most
one `message_start` was emitted, the flag records whether one was, and
every `content_block_delta` so far was preceded by a `message_start`. -/
def StreamInv (f : Bool) (E : List Event) : Prop :=
  E.countP (fun e => Event.isStart e) ≤ 1 ∧
  E.any Event.isStart = f ∧
  okOrder false E = true

/-- The events strictly after the first `message_stop` (empty when no
`message_stop` occurs). -/
def afterFirstStop : List Event → List Event
  | [] => []
  | e :: rest => if e = .messageStop then rest else afterFirstStop rest

/-- The payload of an SSE line: `line.slice(5).trim()`. -/
def payloadOf (line : List Char) : List Char :=
  jsTrim (line.drop 5)

/-- Whether a line reaches `JSON.parse` and parses to a record: it
carries the data prefix, is not the `[DONE]` sentinel, and `parse`
succeeds on its payload. -/
def parsedData (parse : List Char → Option ChunkRec) (line : List Char) : Bool :=
  strStarts line litData &&
    (if payloadOf line = litDone then false else (parse (payloadOf line)).isSome)

/-- Whether a line produces the pair `message_delta` / `message_stop`:
it parses to a record whose `finish_reason` is truthy. -/
def yieldsFinish (parse : List Char → Option ChunkRec) (line : List Char) : Bool :=
  strStarts line litData &&
    (if payloadOf line = litDone then false
     else
       match parse (payloadOf line) with
       | some r => r.finish.isSome
       | none => false)

/-- Whether a line can emit no event from a header-sent state: either it
never reaches the parse, or the parse fails, or the record carries
neither delta text nor a finish signal. -/
def quietLine (parse : List Char → Option ChunkRec) (line : List Char) : Bool :=
  if strStarts line litData then
    if payloadOf line = litDone then true
    else
      match parse (payloadOf line) with
      | none => true
      | some r => r.delta = [] && r.finish = none
  else true

/-- Strict user/assistant alternation of the produced roles, starting
from the role selected by the flag. -/
def alternates : Bool → List OMsg → Bool
  | _, [] => true
  | isHuman, m :: rest => m.role = roleOf isHuman && alternates (!isHuman) rest

/-- The skip test of the messages branch:
`message.role === 'assistant' && message.content.length === 0` (on
non-nullish content). -/
def skippedMsg (m : AMsg) : Bool :=
  m.role = litAssistant && (m.content = .str [] || m.content = .parts [])

/-- Concatenation of the text fields of a part list, written as a direct
recursion (the specification-side formulation of the collapse rule, to
compare with the converter's `map`/`join`). -/
def textsConcat : List CPart → List Char
  | [] => []
  | .text t :: rest => t ++ textsConcat rest
  | _ :: rest => textsConcat rest

/-- Trimmed-nonempty test on a split segment (the loop's
`part.length === 0` skip applies after `trim()`). -/
def segKept (seg : List Char) : Bool :=
  jsTrim seg ≠ []

/-! ## Composition lemmas for the stream machine -/

theorem runBytes_append (d : DecState) (a b : List Nat) :
    runBytes d (a ++ b) =
      ((runBytes (runBytes d a).1 b).1,
       (runBytes d a).2 ++ (runBytes (runBytes d a).1 b).2) := by
  induction a generalizing d with
  | nil => simp [runBytes]
  | cons x xs ih => simp [runBytes, ih, List.append_assoc]

theorem runLines_append (parse : List Char → Option ChunkRec)
    (a b : List (List Char)) (st : LState) :
    runLines parse st (a ++ b) =
      ((runLines parse (runLines parse st a).1 b).1,
       (runLines parse st a).2 ++ (runLines parse (runLines parse st a).1 b).2) := by
  induction a generalizing st with
  | nil => simp [runLines]
  | cons x xs ih => simp [runLines, ih, List.append_assoc]

theorem runChars_append (parse : List Char → Option ChunkRec)
    (a b : List Char) (sb : LState × List Char) :
    runChars parse sb (a ++ b) =
      ((runChars parse (runChars parse sb a).1 b).1,
       (runChars parse sb a).2 ++ (runChars parse (runChars parse sb a).1 b).2) := by
  induction a generalizing sb with
  | nil => simp [runChars]
  | cons x xs ih =>
    obtain ⟨st, buf⟩ := sb
    by_cases hx : x = '\n'
    · subst hx
      simp [runChars, ih, List.append_assoc]
    · simp [runChars, hx, ih]

theorem splitNl_ne_nil (s : List Char) : splitNl s ≠ [] := by
  cases s with
  | nil => simp [splitNl]
  | cons c cs =>
    simp only [splitNl]
    by_cases h : c = '\n'
    · simp [h]
    · simp only [h, if_false]
      cases splitNl cs <;> simp

theorem splitNl_no_nl (s : List Char) (h : '\n' ∉ s) : splitNl s = [s] := by
  induction s with
  | nil => simp [splitNl]
  | cons c cs ih =>
    have hc : c ≠ '\n' := fun hc => h (hc ▸ List.mem_cons_self c cs)
    have hcs : '\n' ∉ cs := fun hm => h (List.mem_cons_of_mem c hm)
    simp [splitNl, hc, ih hcs]

theorem splitNl_append_nl (a b : List Char) (h : '\n' ∉ a) :
    splitNl (a ++ '\n' :: b) = a :: splitNl b := by
  induction a with
  | nil => simp [splitNl]
  | cons c cs ih =>
    have hc : c ≠ '\n' := fun hc => h (hc ▸ List.mem_cons_self c cs)
    have hcs : '\n' ∉ cs := fun hm => h (List.mem_cons_of_mem c hm)
    simp [splitNl, hc, ih hcs]

theorem splitNl_parts_no_nl (s : List Char) :
    ∀ p ∈ splitNl s, '\n' ∉ p := by
  induction s with
  | nil => simp [splitNl]
  | cons c cs ih =>
    by_cases hc : c = '\n'
    · subst hc
      simp only [splitNl, if_pos rfl]
      intro p hp
      rcases List.mem_cons.mp hp with h | h
      · simp [h]
      · exact ih p h
    · simp only [splitNl, hc, if_false]
      rcases hps : splitNl cs with _ | ⟨q, qs⟩
      · exact absurd hps (splitNl_ne_nil cs)
      · intro p hp
        rcases List.mem_cons.mp hp with h | h
        · subst h
          intro hm
          rcases List.mem_cons.mp hm with h2 | h2
          · exact hc h2.symm
          · exact ih q (hps ▸ List.mem_cons_self q qs) h2
        · exact ih p (hps ▸ List.mem_cons_of_mem q h)

theorem getLastD_mem_cons (ps : List (List Char)) (p : List Char) :
    (p :: ps).getLastD [] ∈ p :: ps := by
  induction ps generalizing p with
  | nil => simp [List.getLastD]
  | cons q qs ih =>
    have := ih q
    simp only [List.getLastD_cons] at this ⊢
    exact List.mem_cons_of_mem p this

theorem splitNl_getLastD_no_nl (s : List Char) :
    '\n' ∉ (splitNl s).getLastD [] := by
  rcases h : splitNl s with _ | ⟨p, ps⟩
  · simp
  · have hall := splitNl_parts_no_nl s
    rw [h] at hall
    exact hall _ (getLastD_mem_cons ps p)

/-- The batched line split performed per chunk agrees with feeding the
decoded characters one at a time. -/
theorem runChars_eq_split (parse : List Char → Option ChunkRec)
    (t : List Char) (st : LState) (buf : List Char) (h : '\n' ∉ buf) :
    runChars parse (st, buf) t =
      (((runLines parse st (splitNl (buf ++ t)).dropLast).1,
        (splitNl (buf ++ t)).getLastD []),
       (runLines parse st (splitNl (buf ++ t)).dropLast).2) := by
  induction t generalizing st buf with
  | nil =>
    rw [List.append_nil, splitNl_no_nl buf h]
    simp [runChars, runLines]
  | cons c cs ih =>
    by_cases hc : c = '\n'
    · subst hc
      rw [splitNl_append_nl buf cs h]
      rcases hcs : splitNl cs with _ | ⟨p, ps⟩
      · exact absurd hcs (splitNl_ne_nil cs)
      · have ihz := ih (processLine parse st buf).1 [] (by simp)
        rw [List.nil_append, hcs] at ihz
        simp only [runChars, if_pos rfl, ihz, List.dropLast_cons₂, runLines,
          List.getLastD_cons, if_true]
    · have hbc : '\n' ∉ buf ++ [c] := by
        intro hm
        rcases List.mem_append.mp hm with h2 | h2
        · exact h h2
        · simp only [List.mem_singleton] at h2
          exact hc h2.symm
      have ihc := ih st (buf ++ [c]) hbc
      rw [List.append_assoc, List.singleton_append] at ihc
      simpa [runChars, hc] using ihc

/-- One chunk step, expressed through the per-character machine. -/
theorem processChunk_eq (parse : List Char → Option ChunkRec)
    (s : SState) (chunk : List Nat) (h : '\n' ∉ s.buf) :
    processChunk parse s chunk =
      (⟨(runBytes s.dec chunk).1,
        (runChars parse (s.st, s.buf) (runBytes s.dec chunk).2).1.2,
        (runChars parse (s.st, s.buf) (runBytes s.dec chunk).2).1.1⟩,
       (runChars parse (s.st, s.buf) (runBytes s.dec chunk).2).2) := by
  have hs := runChars_eq_split parse (runBytes s.dec chunk).2 s.st s.buf h
  simp [processChunk, hs]

/-- Chunk steps compose: splitting the bytes over two reads produces the
same state and events as one read of the concatenation. -/
theorem processChunk_append (parse : List Char → Option ChunkRec)
    (s : SState) (a b : List Nat) (h : '\n' ∉ s.buf) :
    processChunk parse s (a ++ b) =
      ((processChunk parse (processChunk parse s a).1 b).1,
       (processChunk parse s a).2 ++
         (processChunk parse (processChunk parse s a).1 b).2) := by
  have e1 := processChunk_eq parse s a h
  have hY : '\n' ∉ (runChars parse (s.st, s.buf) (runBytes s.dec a).2).1.2 := by
    rw [runChars_eq_split parse _ s.st s.buf h]
    exact splitNl_getLastD_no_nl _
  have h1 : '\n' ∉ (processChunk parse s a).1.buf := by
    rw [e1]
    exact hY
  have e2 := processChunk_eq parse (processChunk parse s a).1 b h1
  have e3 := processChunk_eq parse s (a ++ b) h
  rw [e3, e2, e1]
  simp only [runBytes_append, runChars_append]

/-- The whole chunk loop equals one chunk step on the concatenated
bytes. -/
theorem runChunks_flatten (parse : List Char → Option ChunkRec)
    (chunks : List (List Nat)) :
    ∀ (s : SState), '\n' ∉ s.buf →
      runChunks parse s chunks = processChunk parse s chunks.flatten := by
  induction chunks with
  | nil =>
    intro s h
    simp [runChunks, List.flatten, processChunk_eq parse s [] h, runBytes, runChars]
  | cons c cs ih =>
    intro s h
    have hY : '\n' ∉ (runChars parse (s.st, s.buf) (runBytes s.dec c).2).1.2 := by
      rw [runChars_eq_split parse _ s.st s.buf h]
      exact splitNl_getLastD_no_nl _
    have h1 : '\n' ∉ (processChunk parse s c).1.buf := by
      rw [processChunk_eq parse s c h]
      exact hY
    simp [runChunks, ih _ h1, List.flatten, processChunk_append parse s c cs.flatten h]

/-- C1: for every backend SSE byte stream and every record parse
function, feeding the stream reframer the bytes split at arbitrary
chunk boundaries — `chunks` ranges over all ways of cutting the byte
sequence, including cuts inside a multi-byte UTF-8 character and inside
a JSON data line — produces exactly the same ordered sequence of unified
output events as feeding the concatenated bytes as one single chunk. -/
theorem c1_chunk_split_invariance (parse : List Char → Option ChunkRec)
    (chunks : List (List Nat)) :
    processStream parse chunks = processStream parse [chunks.flatten] := by
  unfold processStream
  rw [runChunks_flatten parse chunks initS (by simp [initS]),
    runChunks_flatten parse [chunks.flatten] initS (by simp [initS])]
  simp

/-! ## Shape of a single line step -/

/-- A line that never reaches a successful parse leaves the state
untouched and emits nothing. -/
theorem processLine_inert (parse : List Char → Option ChunkRec)
    (st : LState) (l : List Char) (h : parsedData parse l = false) :
    processLine parse st l = (st, []) := by
  unfold parsedData payloadOf at h
  unfold processLine
  by_cases hd : strStarts l litData
  · simp only [hd, if_true]
    by_cases hdone : jsTrim (l.drop 5) = litDone
    · simp [hdone]
    · rcases hp : parse (jsTrim (l.drop 5)) with _ | r
      · simp [hdone, hp]
      · exfalso
        simp [hd, hdone, hp] at h
  · simp [hd]

/-- A line whose payload parses to a record `r` emits, in order, the
header (when not yet sent), the content delta (when `r.delta` is
non-empty) and the stop pair (when `r.finish` is truthy), and marks the
header as sent. -/
theorem processLine_parsed (parse : List Char → Option ChunkRec)
    (st : LState) (l : List Char) (r : ChunkRec)
    (hd : strStarts l litData = true) (hdone : payloadOf l ≠ litDone)
    (hp : parse (payloadOf l) = some r) :
    processLine parse st l =
      (⟨true, st.contentAccumulator ++ r.delta⟩,
       (if st.sentHeader then [] else [Event.messageStart]) ++
         ((if r.delta = [] then [] else [Event.contentBlockDelta r.delta]) ++
           (match r.finish with
            | some fr => [Event.messageDelta (mapStopReason fr), Event.messageStop]
            | none => []))) := by
  unfold payloadOf at hdone hp
  unfold processLine
  simp only [hd, if_true, hdone, if_false, hp]
  by_cases hs : st.sentHeader <;> simp [hs]

/-! ## The header invariant (C3) -/

theorem okOrder_true (A : List Event) : okOrder true A = true := by
  induction A with
  | nil => rfl
  | cons e rest ih => cases e <;> simp [okOrder, ih]

theorem okOrder_append (E A : List Event) :
    ∀ b, okOrder b (E ++ A) = (okOrder b E && okOrder (b || E.any Event.isStart) A) := by
  induction E with
  | nil => intro b; simp [okOrder]
  | cons e rest ih =>
    intro b
    cases e with
    | messageStart =>
      simp [okOrder, ih true, Event.isStart, okOrder_true]
    | contentBlockDelta t =>
      simp only [List.cons_append, okOrder, List.any_cons, Event.isStart, Bool.false_or,
        List.append_eq]
      rw [ih b, Bool.and_assoc]
    | messageDelta fr =>
      simp [okOrder, ih b, Event.isStart]
    | messageStop =>
      simp [okOrder, ih b, Event.isStart]

/-- One line step preserves the header invariant. -/
theorem processLine_inv (parse : List Char → Option ChunkRec)
    (st : LState) (l : List Char) (E : List Event)
    (h : StreamInv st.sentHeader E) :
    StreamInv (processLine parse st l).1.sentHeader
      (E ++ (processLine parse st l).2) := by
  obtain ⟨h1, h2, h3⟩ := h
  by_cases hq : parsedData parse l
  · have hd : strStarts l litData = true := by
      unfold parsedData at hq
      exact (Bool.and_eq_true_iff.mp hq).1
    have hdone : payloadOf l ≠ litDone := by
      unfold parsedData at hq
      intro hcon
      rw [if_pos hcon] at hq
      simp at hq
    obtain ⟨r, hp⟩ : ∃ r, parse (payloadOf l) = some r := by
      unfold parsedData at hq
      rw [if_neg hdone] at hq
      exact Option.isSome_iff_exists.mp (Bool.and_eq_true_iff.mp hq).2
    rw [processLine_parsed parse st l r hd hdone hp]
    set A2 : List Event :=
      (if r.delta = [] then [] else [Event.contentBlockDelta r.delta]) ++
        (match r.finish with
         | some fr => [Event.messageDelta (mapStopReason fr), Event.messageStop]
         | none => []) with hA2
    have hA2nostart : Event.messageStart ∉ A2 := by
      rw [hA2]
      intro ha
      rcases List.mem_append.mp ha with hm | hm
      · by_cases hdel : r.delta = []
        · rw [if_pos hdel] at hm
          simp at hm
        · rw [if_neg hdel] at hm
          simp at hm
      · rcases hfin : r.finish with _ | fr <;> rw [hfin] at hm <;> simp at hm
    have hA2start : A2.countP (fun e => Event.isStart e) = 0 := by
      rw [List.countP_eq_zero]
      intro a ha
      cases a with
      | messageStart => exact absurd ha hA2nostart
      | contentBlockDelta t => simp [Event.isStart]
      | messageDelta fr => simp [Event.isStart]
      | messageStop => simp [Event.isStart]
    have hA2any : A2.any Event.isStart = false := by
      rw [List.any_eq_false]
      intro a ha
      have := List.countP_eq_zero.mp hA2start a ha
      simpa using this
    have hA2ok : okOrder true A2 = true := okOrder_true A2
    by_cases hs : st.sentHeader
    · rw [hs] at h2
      refine ⟨?_, ?_, ?_⟩
      · rw [if_pos hs, List.nil_append, List.countP_append, hA2start]
        simpa using h1
      · simp [hs, List.any_append, h2, hA2any]
      · rw [if_pos hs, List.nil_append, okOrder_append, h3, h2]
        simp [hA2ok]
    · have hs2 : st.sentHeader = false := by simpa using hs
      rw [hs2] at h2
      have hE0 : E.countP (fun e => Event.isStart e) = 0 := by
        rw [List.countP_eq_zero]
        intro a ha
        have := List.any_eq_false.mp h2 a ha
        simpa using this
      refine ⟨?_, ?_, ?_⟩
      · rw [if_neg hs, List.countP_append, hE0, List.singleton_append,
          List.countP_cons, hA2start]
        simp [Event.isStart]
      · simp [hs2, List.any_append, Event.isStart]
      · rw [if_neg hs, okOrder_append, h3, h2, List.singleton_append]
        simp only [Bool.or_false, Bool.true_and]
        simp [okOrder, okOrder_true]
  · have hq2 : parsedData parse l = false := by simpa using hq
    rw [processLine_inert parse st l hq2]
    exact ⟨by simpa using h1, by simpa using h2, by simpa using h3⟩

/-- The per-character machine preserves the header invariant. -/
theorem runChars_inv (parse : List Char → Option ChunkRec) (t : List Char) :
    ∀ (st : LState) (buf : List Char) (E : List Event),
      StreamInv st.sentHeader E →
      StreamInv (runChars parse (st, buf) t).1.1.sentHeader
        (E ++ (runChars parse (st, buf) t).2) := by
  induction t with
  | nil =>
    intro st buf E h
    simpa [runChars] using h
  | cons c cs ih =>
    intro st buf E h
    by_cases hc : c = '\n'
    · subst hc
      have h1 := processLine_inv parse st buf E h
      have h2 := ih (processLine parse st buf).1 []
        (E ++ (processLine parse st buf).2) h1
      simp only [runChars, if_pos rfl]
      simpa [List.append_assoc] using h2
    · simp only [runChars, hc, if_false]
      exact ih st (buf ++ [c]) E h

theorem okOrder_sound (E : List Event) :
    ∀ (b : Bool) (l1 : List Event) (t : List Char) (l2 : List Event),
      okOrder b E = true → E = l1 ++ Event.contentBlockDelta t :: l2 →
      b = true ∨ Event.messageStart ∈ l1 := by
  induction E with
  | nil =>
    intro b l1 t l2 _ heq
    exact absurd heq (by simp)
  | cons e rest ih =>
    intro b l1 t l2 hok heq
    cases l1 with
    | nil =>
      simp only [List.nil_append, List.cons.injEq] at heq
      rw [heq.1] at hok
      simp only [okOrder, Bool.and_eq_true] at hok
      exact Or.inl hok.1
    | cons x l1t =>
      simp only [List.cons_append, List.cons.injEq] at heq
      obtain ⟨hx, hrest⟩ := heq
      subst hx
      cases e with
      | messageStart => exact Or.inr (List.mem_cons_self _ _)
      | contentBlockDelta s =>
        simp only [okOrder, Bool.and_eq_true] at hok
        rcases ih b l1t t l2 hok.2 hrest with h | h
        · exact Or.inl h
        · exact Or.inr (List.mem_cons_of_mem _ h)
      | messageDelta fr =>
        simp only [okOrder] at hok
        rcases ih b l1t t l2 hok hrest with h | h
        · exact Or.inl h
        · exact Or.inr (List.mem_cons_of_mem _ h)
      | messageStop =>
        simp only [okOrder] at hok
        rcases ih b l1t t l2 hok hrest with h | h
        · exact Or.inl h
        · exact Or.inr (List.mem_cons_of_mem _ h)

/-- The reframer state reached on any stream satisfies the header
invariant. -/
theorem processStream_inv (parse : List Char → Option ChunkRec)
    (chunks : List (List Nat)) :
    StreamInv
      (runChars parse (initL, []) (runBytes initDec chunks.flatten).2).1.1.sentHeader
      (processStream parse chunks) := by
  have hps : processStream parse chunks =
      (runChars parse (initL, []) (runBytes initDec chunks.flatten).2).2 := by
    unfold processStream
    rw [runChunks_flatten parse chunks initS (by simp [initS]),
      processChunk_eq parse initS chunks.flatten (by simp [initS])]
    rfl
  have hinv := runChars_inv parse (runBytes initDec chunks.flatten).2 initL [] []
    ⟨by simp, by simp [initL], rfl⟩
  rw [List.nil_append] at hinv
  rw [hps]
  exact hinv

/-- C3: over any backend byte stream and any record parse function, the
reframer emits `message_start` at most once, and every
`content_block_delta` event is preceded by a `message_start` event. -/
theorem c3_header_once_before_delta (parse : List Char → Option ChunkRec)
    (chunks : List (List Nat)) :
    (processStream parse chunks).countP (fun e => Event.isStart e) ≤ 1 ∧
      ∀ l1 (t : List Char) l2,
        processStream parse chunks = l1 ++ Event.contentBlockDelta t :: l2 →
        Event.messageStart ∈ l1 := by
  obtain ⟨h1, _, h3⟩ := processStream_inv parse chunks
  refine ⟨h1, ?_⟩
  intro l1 t l2 h
  rcases okOrder_sound (processStream parse chunks) false l1 t l2 h3 h with hb | hm
  · exact absurd hb (by simp)
  · exact hm

/-! ## Skipping and quiet lines (C2, C4, C5) -/

/-- Lines that never produce a parsed record leave state and output
untouched. -/
theorem runLines_inert (parse : List Char → Option ChunkRec)
    (ls : List (List Char)) :
    ∀ st : LState, (∀ l ∈ ls, parsedData parse l = false) →
      runLines parse st ls = (st, []) := by
  induction ls with
  | nil =>
    intro st _
    rfl
  | cons x xs ih =>
    intro st h
    have hx := processLine_inert parse st x (h x (List.mem_cons_self x xs))
    have hxs := ih st (fun l hl => h l (List.mem_cons_of_mem x hl))
    simp [runLines, hx, hxs]

/-- From a header-sent state, quiet lines change nothing and emit
nothing. -/
theorem runLines_quiet (parse : List Char → Option ChunkRec)
    (ls : List (List Char)) :
    ∀ st : LState, st.sentHeader = true →
      (∀ l ∈ ls, quietLine parse l = true) →
      runLines parse st ls = (st, []) := by
  induction ls with
  | nil =>
    intro st _ _
    rfl
  | cons x xs ih =>
    intro st hs h
    have hq := h x (List.mem_cons_self x xs)
    have hx : processLine parse st x = (st, []) := by
      unfold quietLine at hq
      by_cases hd : strStarts x litData
      · rw [if_pos hd] at hq
        by_cases hdone : payloadOf x = litDone
        · exact processLine_inert parse st x
            (by unfold parsedData; rw [hd, if_pos hdone]; simp)
        · rw [if_neg hdone] at hq
          rcases hp : parse (payloadOf x) with _ | r
          · exact processLine_inert parse st x
              (by unfold parsedData; rw [hd]; rw [if_neg hdone]; simp [hp])
          · rw [hp] at hq
            simp only [Bool.and_eq_true, decide_eq_true_eq] at hq
            obtain ⟨hdel, hfin⟩ := hq
            rw [processLine_parsed parse st x r hd hdone hp, hdel, hfin, hs]
            obtain ⟨f, acc⟩ := st
            have hf : f = true := hs
            subst hf
            simp
      · exact processLine_inert parse st x
          (by unfold parsedData; simp [hd])
    have hxs := ih st hs (fun l hl => h l (List.mem_cons_of_mem x hl))
    simp [runLines, hx, hxs]

/-- Lines that do not yield a finish signal emit neither `message_delta`
nor `message_stop`. -/
theorem runLines_no_finish_events (parse : List Char → Option ChunkRec)
    (ls : List (List Char)) :
    ∀ st : LState, (∀ l ∈ ls, yieldsFinish parse l = false) →
      ∀ e ∈ (runLines parse st ls).2, e.isMsgDelta = false ∧ e.isStop = false := by
  induction ls with
  | nil =>
    intro st _ e he
    simp [runLines] at he
  | cons x xs ih =>
    intro st h e he
    have hx := h x (List.mem_cons_self x xs)
    have hline : ∀ e2 ∈ (processLine parse st x).2,
        e2.isMsgDelta = false ∧ e2.isStop = false := by
      intro e2 he2
      by_cases hq : parsedData parse x
      · have hd : strStarts x litData = true := by
          unfold parsedData at hq
          exact (Bool.and_eq_true_iff.mp hq).1
        have hdone : payloadOf x ≠ litDone := by
          unfold parsedData at hq
          intro hcon
          rw [if_pos hcon] at hq
          simp at hq
        obtain ⟨r, hp⟩ : ∃ r, parse (payloadOf x) = some r := by
          unfold parsedData at hq
          rw [if_neg hdone] at hq
          exact Option.isSome_iff_exists.mp (Bool.and_eq_true_iff.mp hq).2
        have hfin : r.finish = none := by
          unfold yieldsFinish at hx
          rw [hd, if_neg hdone, hp] at hx
          simp only [Bool.true_and] at hx
          exact Option.not_isSome_iff_eq_none.mp (by simp [hx])
        rw [processLine_parsed parse st x r hd hdone hp, hfin] at he2
        simp only [List.append_nil] at he2
        rcases List.mem_append.mp he2 with hm | hm
        · by_cases hsent : st.sentHeader
          · rw [if_pos hsent] at hm
            simp at hm
          · rw [if_neg hsent] at hm
            simp only [List.mem_singleton] at hm
            subst hm
            exact ⟨rfl, rfl⟩
        · by_cases hdel : r.delta = []
          · rw [if_pos hdel] at hm
            simp at hm
          · rw [if_neg hdel] at hm
            simp only [List.mem_singleton] at hm
            subst hm
            exact ⟨rfl, rfl⟩
      · have hq2 : parsedData parse x = false := by simpa using hq
        rw [processLine_inert parse st x hq2] at he2
        simp at he2
    simp only [runLines] at he
    rcases List.mem_append.mp he with hm | hm
    · exact hline e hm
    · exact ih (processLine parse st x).1 (fun l hl => h l (List.mem_cons_of_mem x hl)) e hm

/-- C5: a data line whose payload fails to parse is skipped without
terminating the stream: the events of the whole line sequence with the
malformed line present equal those with it removed, so every subsequent
valid record contributes exactly the same events. -/
theorem c5_malformed_line_skipped (parse : List Char → Option ChunkRec)
    (st : LState) (pre post : List (List Char)) (L : List Char)
    (hd : strStarts L litData = true)
    (hp : parse (payloadOf L) = none) :
    runLines parse st (pre ++ L :: post) = runLines parse st (pre ++ post) := by
  have hinert : ∀ s : LState, processLine parse s L = (s, []) := by
    intro s
    apply processLine_inert
    unfold parsedData
    rw [hd]
    by_cases hdone : payloadOf L = litDone
    · simp [hdone]
    · simp [hdone, hp]
  induction pre generalizing st with
  | nil => simp [runLines, hinert st]
  | cons x xs ih => simp [runLines, ih]

/-- C5 witness: a malformed JSON data line between two valid delta
records is skipped and the surrounding events are unchanged. -/
theorem c5_witness :
    runLines parseSseData initL
        ([("data: \x7b\"choices\":[\x7b\"delta\":\x7b\"content\":\"a\"\x7d\x7d]\x7d").toList] ++
          ("data: \x7bnope").toList ::
            [("data: \x7b\"choices\":[\x7b\"delta\":\x7b\"content\":\"b\"\x7d\x7d]\x7d").toList]) =
      runLines parseSseData initL
        ([("data: \x7b\"choices\":[\x7b\"delta\":\x7b\"content\":\"a\"\x7d\x7d]\x7d").toList] ++
          [("data: \x7b\"choices\":[\x7b\"delta\":\x7b\"content\":\"b\"\x7d\x7d]\x7d").toList]) :=
  c5_malformed_line_skipped parseSseData initL
    [("data: \x7b\"choices\":[\x7b\"delta\":\x7b\"content\":\"a\"\x7d\x7d]\x7d").toList]
    [("data: \x7b\"choices\":[\x7b\"delta\":\x7b\"content\":\"b\"\x7d\x7d]\x7d").toList]
    (("data: \x7bnope").toList)
    (by decide) (by decide)

/-- C2 counterexample: the reframer does not stop after `message_stop`.
A stream whose finish record is followed by a further delta record emits
a `content_block_delta` after the `message_stop`, refuting the claim
that no events of any kind follow it. -/
theorem c2_counterexample :
    processStream parseSseData
        [(("data: \x7b\"choices\":[\x7b\"delta\":\x7b\"content\":\"a\"\x7d,\"finish_reason\":\"stop\"\x7d]\x7d\ndata: \x7b\"choices\":[\x7b\"delta\":\x7b\"content\":\"b\"\x7d\x7d]\x7d\n").toList.map Char.toNat)] =
      [Event.messageStart, Event.contentBlockDelta ("a".toList),
        Event.messageDelta ("end_turn".toList), Event.messageStop,
        Event.contentBlockDelta ("b".toList)] ∧
    afterFirstStop
        (processStream parseSseData
          [(("data: \x7b\"choices\":[\x7b\"delta\":\x7b\"content\":\"a\"\x7d,\"finish_reason\":\"stop\"\x7d]\x7d\ndata: \x7b\"choices\":[\x7b\"delta\":\x7b\"content\":\"b\"\x7d\x7d]\x7d\n").toList.map Char.toNat)]) =
      [Event.contentBlockDelta ("b".toList)] := by
  constructor
  · rfl
  · rfl

/-- C2 amended: a record carrying a truthy finish signal emits exactly
one `message_delta` (with the mapped stop reason) immediately followed by
exactly one `message_stop`, and when — as in a well-formed backend
stream — no earlier line yields a finish signal and every later line is
quiet (non-data, `[DONE]`, unparseable, or a record with neither delta
text nor finish), these are the only such events and nothing follows
them.  The reframer itself does not enforce termination: a later
delta-bearing record would still be processed (see the
counterexample). -/
theorem c2_finish_emits_delta_then_stop (parse : List Char → Option ChunkRec)
    (pre post : List (List Char)) (L : List Char) (r : ChunkRec) (fr : List Char)
    (h1 : ∀ l ∈ pre, yieldsFinish parse l = false)
    (hd : strStarts L litData = true)
    (hdone : payloadOf L ≠ litDone)
    (hp : parse (payloadOf L) = some r)
    (hf : r.finish = some fr)
    (h3 : ∀ l ∈ post, quietLine parse l = true) :
    ∃ pfx, (runLines parse initL (pre ++ L :: post)).2 =
        pfx ++ [Event.messageDelta (mapStopReason fr), Event.messageStop] ∧
      ∀ e ∈ pfx, e.isMsgDelta = false ∧ e.isStop = false := by
  rw [runLines_append parse pre (L :: post) initL]
  set st1 := (runLines parse initL pre).1 with hst1
  have hL := processLine_parsed parse st1 L r hd hdone hp
  rw [hf] at hL
  set H : List Event := if st1.sentHeader then [] else [Event.messageStart] with hH
  set D : List Event :=
    if r.delta = [] then [] else [Event.contentBlockDelta r.delta] with hD
  have hsent : (processLine parse st1 L).1.sentHeader = true := by
    rw [hL]
  have hpost := runLines_quiet parse post (processLine parse st1 L).1 hsent h3
  simp only [runLines, hpost, List.append_nil]
  refine ⟨(runLines parse initL pre).2 ++ (H ++ D), ?_, ?_⟩
  · rw [hL]
    simp [List.append_assoc]
  · intro e he
    rcases List.mem_append.mp he with hm | hm
    · exact runLines_no_finish_events parse pre initL h1 e hm
    · rcases List.mem_append.mp hm with hm2 | hm2
      · rw [hH] at hm2
        by_cases hsent2 : st1.sentHeader
        · rw [if_pos hsent2] at hm2
          simp at hm2
        · rw [if_neg hsent2] at hm2
          simp only [List.mem_singleton] at hm2
          subst hm2
          exact ⟨rfl, rfl⟩
      · rw [hD] at hm2
        by_cases hdel : r.delta = []
        · rw [if_pos hdel] at hm2
          simp at hm2
        · rw [if_neg hdel] at hm2
          simp only [List.mem_singleton] at hm2
          subst hm2
          exact ⟨rfl, rfl⟩

/-- C2 witness: on a concrete well-formed line sequence — one delta
record, the finish record, then the `[DONE]` sentinel — the event list
ends with the single `message_delta`/`message_stop` pair. -/
theorem c2_finish_witness :
    ∃ pfx, (runLines parseSseData initL
        ([("data: \x7b\"choices\":[\x7b\"delta\":\x7b\"content\":\"a\"\x7d\x7d]\x7d").toList] ++
          ("data: \x7b\"choices\":[\x7b\"delta\":\x7b\x7d,\"finish_reason\":\"stop\"\x7d]\x7d").toList ::
            [("data: [DONE]").toList])).2 =
        pfx ++ [Event.messageDelta (mapStopReason ("stop".toList)), Event.messageStop] ∧
      ∀ e ∈ pfx, e.isMsgDelta = false ∧ e.isStop = false :=
  c2_finish_emits_delta_then_stop parseSseData
    [("data: \x7b\"choices\":[\x7b\"delta\":\x7b\"content\":\"a\"\x7d\x7d]\x7d").toList]
    [("data: [DONE]").toList]
    (("data: \x7b\"choices\":[\x7b\"delta\":\x7b\x7d,\"finish_reason\":\"stop\"\x7d]\x7d").toList)
    ⟨[], some ("stop".toList)⟩ ("stop".toList)
    (by decide) (by decide) (by decide) (by decide) (by decide) (by decide)

/-- C4 counterexample: a record that yields neither delta text nor a
finish signal (an initial role-only delta) does trigger the
`message_start` event, refuting the claim that such records emit no
header. -/
theorem c4_counterexample :
    parseSseData (("\x7b\"choices\":[\x7b\"delta\":\x7b\"role\":\"assistant\"\x7d\x7d]\x7d").toList) =
      some ⟨[], none⟩ ∧
    processStream parseSseData
        [(("data: \x7b\"choices\":[\x7b\"delta\":\x7b\"role\":\"assistant\"\x7d\x7d]\x7d\n").toList.map Char.toNat)] =
      [Event.messageStart] := by
  constructor
  · rfl
  · rfl

/-- C4 amended: the `message_start` event is emitted exactly upon the
first data record whose payload parses successfully — whether or not
that record yields delta text or a finish signal — and a stream whose
lines never produce a parsed record emits nothing at all. -/
theorem c4_header_on_first_parsed_record (parse : List Char → Option ChunkRec) :
    (∀ pre post (L : List Char),
      (∀ l ∈ pre, parsedData parse l = false) → parsedData parse L = true →
      ∃ rest, (runLines parse initL (pre ++ L :: post)).2 = Event.messageStart :: rest) ∧
    (∀ ls, (∀ l ∈ ls, parsedData parse l = false) →
      (runLines parse initL ls).2 = []) := by
  constructor
  · intro pre post L hpre hL
    have hd : strStarts L litData = true := by
      unfold parsedData at hL
      exact (Bool.and_eq_true_iff.mp hL).1
    have hdone : payloadOf L ≠ litDone := by
      unfold parsedData at hL
      intro hcon
      rw [if_pos hcon] at hL
      simp at hL
    obtain ⟨r, hp⟩ : ∃ r, parse (payloadOf L) = some r := by
      unfold parsedData at hL
      rw [if_neg hdone] at hL
      exact Option.isSome_iff_exists.mp (Bool.and_eq_true_iff.mp hL).2
    rw [runLines_append parse pre (L :: post) initL,
      runLines_inert parse pre initL hpre]
    simp only [runLines, List.nil_append]
    rw [processLine_parsed parse initL L r hd hdone hp]
    exact ⟨((if r.delta = [] then [] else [Event.contentBlockDelta r.delta]) ++
        (match r.finish with
         | some fr => [Event.messageDelta (mapStopReason fr), Event.messageStop]
         | none => [])) ++
      (runLines parse
        (⟨true, initL.contentAccumulator ++ r.delta⟩ : LState) post).2, by
        simp [initL]⟩
  · intro ls hls
    rw [runLines_inert parse ls initL hls]

/-- C4 amended witness: a role-only first record triggers the header at
once, and a stream of non-data keep-alive lines emits nothing. -/
theorem c4_header_witness :
    (∃ rest, (runLines parseSseData initL
        ([(": keep-alive").toList] ++
          ("data: \x7b\"choices\":[\x7b\"delta\":\x7b\"role\":\"assistant\"\x7d\x7d]\x7d").toList ::
            [])).2 = Event.messageStart :: rest) ∧
    (runLines parseSseData initL [(": keep-alive").toList]).2 = [] :=
  ⟨(c4_header_on_first_parsed_record parseSseData).1
      [(": keep-alive").toList] []
      (("data: \x7b\"choices\":[\x7b\"delta\":\x7b\"role\":\"assistant\"\x7d\x7d]\x7d").toList)
      (by decide) (by decide),
    (c4_header_on_first_parsed_record parseSseData).2
      [(": keep-alive").toList] (by decide)⟩

/-- C3 witness: on a concrete one-record stream the header count is at
most one and the start event precedes the concrete delta. -/
theorem c3_header_witness :
    (processStream parseSseData
        [(("data: \x7b\"choices\":[\x7b\"delta\":\x7b\"content\":\"a\"\x7d\x7d]\x7d\n").toList.map Char.toNat)]).countP
        (fun e => Event.isStart e) ≤ 1 ∧
      Event.messageStart ∈ [Event.messageStart] :=
  ⟨(c3_header_once_before_delta parseSseData
      [(("data: \x7b\"choices\":[\x7b\"delta\":\x7b\"content\":\"a\"\x7d\x7d]\x7d\n").toList.map Char.toNat)]).1,
    (c3_header_once_before_delta parseSseData
      [(("data: \x7b\"choices\":[\x7b\"delta\":\x7b\"content\":\"a\"\x7d\x7d]\x7d\n").toList.map Char.toNat)]).2
      [Event.messageStart] ("a".toList) [] (by rfl)⟩

/-! ## Request-converter lemmas -/

theorem promptLoop_length (segs : List (List Char)) :
    ∀ b, (promptLoop b segs).length = (segs.filter segKept).length := by
  induction segs with
  | nil => intro b; rfl
  | cons seg rest ih =>
    intro b
    by_cases h : jsTrim seg = []
    · simp [promptLoop, h, List.filter, segKept, ih b]
    · simp [promptLoop, h, List.filter, segKept, ih (!b)]

theorem promptLoop_alternates (segs : List (List Char)) :
    ∀ b, alternates b (promptLoop b segs) = true := by
  induction segs with
  | nil => intro b; rfl
  | cons seg rest ih =>
    intro b
    by_cases h : jsTrim seg = []
    · simp only [promptLoop, h, if_pos]
      exact ih b
    · simp only [promptLoop, h, if_neg, if_false]
      simp [alternates, ih (!b)]

theorem promptLoop_roles (segs : List (List Char)) :
    ∀ b m, m ∈ promptLoop b segs → m.role = litUser ∨ m.role = litAssistant := by
  induction segs with
  | nil =>
    intro b m hm
    simp [promptLoop] at hm
  | cons seg rest ih =>
    intro b m hm
    by_cases h : jsTrim seg = []
    · rw [promptLoop, if_pos h] at hm
      exact ih b m hm
    · rw [promptLoop, if_neg h] at hm
      rcases List.mem_cons.mp hm with h2 | h2
      · subst h2
        unfold roleOf
        by_cases hb : b
        · simp [hb]
        · simp [hb]
      · exact ih (!b) m h2

theorem promptLoop_head_role (segs : List (List Char)) (b : Bool) :
    ∀ m, (promptLoop b segs).head? = some m → (m.role = litUser ↔ b = true) := by
  intro m hm
  have h := promptLoop_alternates segs b
  rcases hms : promptLoop b segs with _ | ⟨m0, rest⟩
  · rw [hms] at hm
    simp at hm
  · rw [hms] at hm h
    simp only [List.head?_cons, Option.some.injEq] at hm
    subst hm
    simp only [alternates, Bool.and_eq_true, decide_eq_true_eq] at h
    rw [h.1]
    unfold roleOf
    by_cases hb : b
    · simp [hb]
    · simp only [hb, if_false]
      constructor
      · intro hcon
        exact absurd hcon (by decide)
      · intro hcon
        exact absurd hcon (by simp [hb])

/-- C6: for a prompt-form request (messages absent, prompt present and
truthy), the translated request contains exactly one message per
delimiter-split segment that is non-empty after trimming, the roles
strictly alternate between `user` and `assistant` starting from the role
implied by the leading `Human:` check, and the first message's role is
`user` iff the trimmed prompt begins with `Human:`.  Segments that trim
to empty are skipped without consuming an alternation step, which the
strict alternation of the produced list expresses. -/
theorem c6_prompt_alternation (env : Env) (r : AnthropicRequest) (p : List Char)
    (hm : r.messages = none) (hp : r.prompt = some p) (hne : p ≠ []) :
    ∃ q, convertAnthropicToOpenAI r env = .ok q ∧
      q.messages.length = ((promptSplit p).filter segKept).length ∧
      alternates (strStarts (jsTrim p) ("Human:".toList)) q.messages = true ∧
      ∀ m, q.messages.head? = some m →
        (m.role = litUser ↔ strStarts (jsTrim p) ("Human:".toList) = true) := by
  have hq : convertAnthropicToOpenAI r env = .ok
      { model := env.OPENAI_MODEL_ID
        messages := promptMessages p
        stream := r.stream.getD false
        temperature := r.temperature
        maxTokens := r.maxTokens
        topP := r.topP } := by
    unfold convertAnthropicToOpenAI
    rw [hm, hp]
    simp only [if_neg hne]
  refine ⟨_, hq, ?_, ?_, ?_⟩
  · exact promptLoop_length (promptSplit p) _
  · exact promptLoop_alternates (promptSplit p) _
  · exact fun m hm2 => promptLoop_head_role (promptSplit p) _ m hm2

/-- C6 witness: the canonical two-turn prompt produces a `user` then an
`assistant` message. -/
theorem c6_prompt_witness :
    ∃ q, convertAnthropicToOpenAI
        ⟨none, some ("\n\nHuman: Hi\n\nAssistant: Hello".toList), none, none,
          none, none, none, none⟩ ⟨"gpt-4o".toList⟩ = .ok q ∧
      q.messages.length =
        ((promptSplit ("\n\nHuman: Hi\n\nAssistant: Hello".toList)).filter segKept).length ∧
      alternates
        (strStarts (jsTrim ("\n\nHuman: Hi\n\nAssistant: Hello".toList)) ("Human:".toList))
        q.messages = true ∧
      ∀ m, q.messages.head? = some m →
        (m.role = litUser ↔
          strStarts (jsTrim ("\n\nHuman: Hi\n\nAssistant: Hello".toList)) ("Human:".toList)
            = true) :=
  c6_prompt_alternation ⟨"gpt-4o".toList⟩
    ⟨none, some ("\n\nHuman: Hi\n\nAssistant: Hello".toList), none, none,
      none, none, none, none⟩
    ("\n\nHuman: Hi\n\nAssistant: Hello".toList) rfl rfl (by decide)

theorem map_textOf_flatten (l : List CPart) :
    (l.map CPart.textOf).flatten = textsConcat l := by
  induction l with
  | nil => rfl
  | cons p rest ih =>
    cases p with
    | text t => simp [textsConcat, CPart.textOf, ih]
    | image u d m => simp [textsConcat, CPart.textOf, ih]
    | other => simp [textsConcat, CPart.textOf, ih]

/-- C7: a message content made entirely of text parts translates to the
single string obtained by concatenating the part texts in order with no
separator, both at the content level and through the per-message
conversion (for any message the loop does not skip). -/
theorem c7_text_parts_concat (l : List CPart) (h : ∀ p ∈ l, p.isText = true) :
    convertContentParts l = .str (textsConcat l) ∧
    ∀ role : List Char, ¬(role = litAssistant ∧ l = []) →
      convertMessage ⟨role, .parts l⟩ = .ok (some ⟨role, .str (textsConcat l)⟩) := by
  have hall : l.all CPart.isText = true := List.all_eq_true.mpr h
  have hcc : convertContentParts l = .str (textsConcat l) := by
    unfold convertContentParts
    rw [if_pos hall, map_textOf_flatten]
  refine ⟨hcc, ?_⟩
  intro role hrole
  have hshape : convertMessage ⟨role, .parts l⟩ =
      if role = litAssistant ∧ l = [] then .ok none
      else .ok (some ⟨role, convertContentParts l⟩) := rfl
  rw [hshape, if_neg hrole, hcc]

/-- C7 witness: three text parts, one empty, collapse to the plain
concatenation. -/
theorem c7_text_parts_witness :
    convertContentParts [CPart.text ("ab".toList), CPart.text [], CPart.text ("c".toList)] =
        .str (textsConcat [CPart.text ("ab".toList), CPart.text [], CPart.text ("c".toList)]) ∧
      convertMessage ⟨litUser, .parts
          [CPart.text ("ab".toList), CPart.text [], CPart.text ("c".toList)]⟩ =
        .ok (some ⟨litUser, .str (textsConcat
          [CPart.text ("ab".toList), CPart.text [], CPart.text ("c".toList)])⟩) := by
  have h := c7_text_parts_concat
    [CPart.text ("ab".toList), CPart.text [], CPart.text ("c".toList)] (by decide)
  exact ⟨h.1, h.2 litUser (by decide)⟩

/-- C8 counterexample: a prompt-form request with a present `system`
field produces no `system` message at all — the translated list is the
single `user` message, whose role differs from `system` — because the
system handling sits inside the messages branch only. -/
theorem c8_counterexample :
    (convertAnthropicToOpenAI
        ⟨none, some ("\n\nHuman: hi".toList), some ("be brief".toList), none,
          none, none, none, none⟩ ⟨"gpt-4o".toList⟩).map (fun q => q.messages) =
      .ok [⟨litUser, .str ("hi".toList)⟩] ∧
    litUser ≠ litSystem := by
  constructor
  · rfl
  · decide

/-- Shape of the converter on a messages-form request. -/
theorem convertA2O_messages_shape (env : Env) (r : AnthropicRequest)
    (ms : List AMsg) (hm : r.messages = some ms) :
    convertAnthropicToOpenAI r env =
      match convertMessages ms with
      | .error e => .error e
      | .ok msgs =>
        .ok { model := env.OPENAI_MODEL_ID
              messages :=
                match r.system with
                | some s => if s = [] then msgs else ⟨litSystem, .str s⟩ :: msgs
                | none => msgs
              stream := r.stream.getD false
              temperature := r.temperature
              maxTokens := r.maxTokens
              topP := r.topP } := by
  unfold convertAnthropicToOpenAI
  rw [hm]

/-- Shape of the converter on a prompt-form request. -/
theorem convertA2O_prompt_shape (env : Env) (r : AnthropicRequest)
    (p : List Char) (hm : r.messages = none) (hp : r.prompt = some p) :
    convertAnthropicToOpenAI r env =
      if p = [] then
        .ok { model := env.OPENAI_MODEL_ID
              messages := []
              stream := r.stream.getD false
              temperature := r.temperature
              maxTokens := r.maxTokens
              topP := r.topP }
      else
        .ok { model := env.OPENAI_MODEL_ID
              messages := promptMessages p
              stream := r.stream.getD false
              temperature := r.temperature
              maxTokens := r.maxTokens
              topP := r.topP } := by
  unfold convertAnthropicToOpenAI
  rw [hm, hp]

/-- C8 amended: a truthy `system` field becomes the first translated
message — with role `system` and the system text — in messages-form
requests only; in prompt-form requests the `system` field is ignored and
no message with role `system` is ever produced. -/
theorem c8_system_first_messages_form_only (env : Env) :
    (∀ (r : AnthropicRequest) ms s q, r.messages = some ms → r.system = some s →
      s ≠ [] → convertAnthropicToOpenAI r env = .ok q →
      q.messages.head? = some ⟨litSystem, .str s⟩) ∧
    (∀ (r : AnthropicRequest) p q, r.messages = none → r.prompt = some p →
      convertAnthropicToOpenAI r env = .ok q →
      ∀ m ∈ q.messages, m.role ≠ litSystem) := by
  constructor
  · intro r ms s q hm hs hsne hq
    rw [convertA2O_messages_shape env r ms hm] at hq
    rcases hcm : convertMessages ms with e | msgs
    · rw [hcm] at hq
      simp at hq
    · rw [hcm] at hq
      simp only [hs, if_neg hsne, Except.ok.injEq] at hq
      rw [← hq]
      rfl
  · intro r p q hm hp hq m hmem
    rw [convertA2O_prompt_shape env r p hm hp] at hq
    by_cases hne : p = []
    · rw [if_pos hne] at hq
      simp only [Except.ok.injEq] at hq
      rw [← hq] at hmem
      simp at hmem
    · rw [if_neg hne] at hq
      simp only [Except.ok.injEq] at hq
      rw [← hq] at hmem
      simp only at hmem
      rcases promptLoop_roles (promptSplit p) _ m hmem with h | h
      · rw [h]
        decide
      · rw [h]
        decide

/-- C8 amended witness: with messages present and a system text, the
first translated message is the system one; with a prompt instead, no
system-role message appears. -/
theorem c8_system_witness :
    ((⟨"gpt-4o".toList,
        [⟨litSystem, .str ("be brief".toList)⟩, ⟨litUser, .str ("hi".toList)⟩],
        false, none, none, none⟩ : OpenAIRequest).messages.head? =
      some ⟨litSystem, .str ("be brief".toList)⟩) ∧
    (∀ m ∈ (⟨"gpt-4o".toList, [⟨litUser, .str ("hi".toList)⟩],
        false, none, none, none⟩ : OpenAIRequest).messages, m.role ≠ litSystem) :=
  ⟨(c8_system_first_messages_form_only ⟨"gpt-4o".toList⟩).1
      ⟨some [⟨litUser, .str ("hi".toList)⟩], none, some ("be brief".toList),
        none, none, none, none, none⟩
      [⟨litUser, .str ("hi".toList)⟩] ("be brief".toList)
      ⟨"gpt-4o".toList,
        [⟨litSystem, .str ("be brief".toList)⟩, ⟨litUser, .str ("hi".toList)⟩],
        false, none, none, none⟩
      rfl rfl (by decide) (by rfl),
    (c8_system_first_messages_form_only ⟨"gpt-4o".toList⟩).2
      ⟨none, some ("\n\nHuman: hi".toList), some ("be brief".toList), none,
        none, none, none, none⟩
      ("\n\nHuman: hi".toList)
      ⟨"gpt-4o".toList, [⟨litUser, .str ("hi".toList)⟩], false, none, none, none⟩
      rfl rfl (by rfl)⟩

/-- C9 counterexample: an assistant message whose content is one empty
text part is not skipped (its part array has length 1) and collapses to
the empty string, so the translated list does contain an assistant
message with empty content. -/
theorem c9_counterexample :
    (convertAnthropicToOpenAI
        ⟨some [⟨litAssistant, .parts [CPart.text []]⟩], none, none, none,
          none, none, none, none⟩ ⟨"gpt-4o".toList⟩).map (fun q => q.messages) =
      .ok [⟨litAssistant, .str []⟩] ∧
    (⟨litAssistant, .str []⟩ : OMsg).role = litAssistant ∧
    (⟨litAssistant, .str []⟩ : OMsg).content = .str [] := by
  refine ⟨rfl, rfl, rfl⟩

theorem convertMessages_filter_skipped (ms : List AMsg) :
    convertMessages (ms.filter fun m => !(skippedMsg m)) = convertMessages ms := by
  induction ms with
  | nil => rfl
  | cons m rest ih =>
    by_cases hsk : skippedMsg m
    · have hcm : convertMessage m = .ok none := by
        unfold skippedMsg at hsk
        simp only [Bool.and_eq_true, Bool.or_eq_true, decide_eq_true_eq] at hsk
        obtain ⟨hrole, hcont⟩ := hsk
        rcases hcont with hc | hc
        · unfold convertMessage
          rw [hc]
          simp [hrole]
        · unfold convertMessage
          rw [hc]
          simp [hrole]
      have hfil : (m :: rest).filter (fun m2 => !(skippedMsg m2)) =
          rest.filter (fun m2 => !(skippedMsg m2)) := by
        simp [List.filter_cons, hsk]
      rw [hfil, ih]
      simp only [convertMessages, hcm]
    · have hfil : (m :: rest).filter (fun m2 => !(skippedMsg m2)) =
          m :: rest.filter (fun m2 => !(skippedMsg m2)) := by
        simp [List.filter_cons, hsk]
      rw [hfil]
      simp only [convertMessages]
      rw [ih]

/-- C9 amended: an assistant message whose content is an empty sequence
(or empty string) is skipped — translating a messages-form request
equals translating it with those messages removed — but the output can
still contain assistant messages with empty content when a non-empty
part sequence collapses to the empty string (see the counterexample). -/
theorem c9_empty_assistant_skipped (env : Env) (r : AnthropicRequest)
    (ms : List AMsg) (h : r.messages = some ms) :
    convertAnthropicToOpenAI r env =
      convertAnthropicToOpenAI
        { r with messages := some (ms.filter fun m => !(skippedMsg m)) } env := by
  rw [convertA2O_messages_shape env r ms h,
    convertA2O_messages_shape env
      { r with messages := some (ms.filter fun m => !(skippedMsg m)) }
      (ms.filter fun m => !(skippedMsg m)) rfl,
    convertMessages_filter_skipped]

/-- C9 amended witness: a concrete request with an empty assistant turn
terminator translates identically to the request without it. -/
theorem c9_skip_witness :
    convertAnthropicToOpenAI
        ⟨some [⟨litUser, .str ("hi".toList)⟩, ⟨litAssistant, .parts []⟩],
          none, none, none, none, none, none, none⟩ ⟨"gpt-4o".toList⟩ =
      convertAnthropicToOpenAI
        ⟨some ([⟨litUser, .str ("hi".toList)⟩, ⟨litAssistant, .parts []⟩].filter
            fun m => !(skippedMsg m)),
          none, none, none, none, none, none, none⟩ ⟨"gpt-4o".toList⟩ :=
  c9_empty_assistant_skipped ⟨"gpt-4o".toList⟩
    ⟨some [⟨litUser, .str ("hi".toList)⟩, ⟨litAssistant, .parts []⟩],
      none, none, none, none, none, none, none⟩
    [⟨litUser, .str ("hi".toList)⟩, ⟨litAssistant, .parts []⟩] rfl

theorem convertMessages_error (ms : List AMsg) (m : AMsg) (hm : m ∈ ms)
    (hrole : m.role = litAssistant) (hcont : m.content = .nullc) :
    convertMessages ms = .error .typeError := by
  induction ms with
  | nil => simp at hm
  | cons x rest ih =>
    rcases List.mem_cons.mp hm with he | he
    · subst he
      have hx : convertMessage m = .error .typeError := by
        unfold convertMessage
        rw [hcont]
        simp [hrole]
      simp [convertMessages, hx]
    · rcases hx : convertMessage x with e | o
      · cases e
        simp [convertMessages, hx]
      · rcases o with _ | om
        · simp [convertMessages, hx, ih he]
        · simp [convertMessages, hx, ih he]

theorem convertMessages_ok (ms : List AMsg)
    (h : ∀ m ∈ ms, m.content = .nullc → m.role ≠ litAssistant) :
    ∃ l, convertMessages ms = .ok l := by
  induction ms with
  | nil => exact ⟨[], rfl⟩
  | cons x rest ih =>
    obtain ⟨l, hl⟩ := ih (fun m hm => h m (List.mem_cons_of_mem x hm))
    have hx : ∃ o, convertMessage x = .ok o := by
      obtain ⟨xrole, xcontent⟩ := x
      rcases xcontent with s | l2 | _
      · by_cases hb : xrole = litAssistant ∧ s = []
        · exact ⟨none, by simp [convertMessage, hb]⟩
        · exact ⟨some ⟨xrole, .str s⟩, by simp [convertMessage, hb]⟩
      · by_cases hb : xrole = litAssistant ∧ l2 = []
        · exact ⟨none, by simp [convertMessage, hb]⟩
        · exact ⟨some ⟨xrole, convertContentParts l2⟩, by simp [convertMessage, hb]⟩
      · have hrole := h ⟨xrole, AContent.nullc⟩ (List.mem_cons_self _ _) rfl
        exact ⟨some ⟨xrole, .undef⟩, by simp [convertMessage, hrole]⟩
    obtain ⟨o, ho⟩ := hx
    rcases o with _ | om
    · exact ⟨l, by simp [convertMessages, ho, hl]⟩
    · exact ⟨om :: l, by simp [convertMessages, ho, hl]⟩

/-- C10: in a messages-form request, an assistant message with
`null`/absent content makes the conversion throw (reading `length` of
the missing content), which the handler surfaces as a 500 `proxy_error`
response; requests in which only non-assistant messages have null
content convert without throwing. -/
theorem c10_null_assistant_content_throws (env : Env) :
    (∀ (r : AnthropicRequest) ms m, r.messages = some ms → m ∈ ms →
      m.role = litAssistant → m.content = .nullc →
      fetchTranslate env r = .errorResponse 500 ("proxy_error".toList)) ∧
    (∀ (r : AnthropicRequest) ms, r.messages = some ms →
      (∀ m ∈ ms, m.content = .nullc → m.role ≠ litAssistant) →
      ∃ q, fetchTranslate env r = .forwarded q) := by
  constructor
  · intro r ms m hr hm hrole hcont
    unfold fetchTranslate
    rw [convertA2O_messages_shape env r ms hr,
      convertMessages_error ms m hm hrole hcont]
  · intro r ms hr h
    obtain ⟨l, hl⟩ := convertMessages_ok ms h
    unfold fetchTranslate
    rw [convertA2O_messages_shape env r ms hr, hl]
    exact ⟨_, rfl⟩

/-- C10 witness: an assistant message with null content yields the 500
`proxy_error`; a user message with null content converts and is
forwarded. -/
theorem c10_null_content_witness :
    fetchTranslate ⟨"gpt-4o".toList⟩
        ⟨some [⟨litAssistant, .nullc⟩], none, none, none, none, none, none, none⟩ =
      .errorResponse 500 ("proxy_error".toList) ∧
    ∃ q, fetchTranslate ⟨"gpt-4o".toList⟩
        ⟨some [⟨litUser, .nullc⟩], none, none, none, none, none, none, none⟩ =
      .forwarded q :=
  ⟨(c10_null_assistant_content_throws ⟨"gpt-4o".toList⟩).1
      ⟨some [⟨litAssistant, .nullc⟩], none, none, none, none, none, none, none⟩
      [⟨litAssistant, .nullc⟩] ⟨litAssistant, .nullc⟩
      rfl (List.mem_cons_self _ _) rfl rfl,
    (c10_null_assistant_content_throws ⟨"gpt-4o".toList⟩).2
      ⟨some [⟨litUser, .nullc⟩], none, none, none, none, none, none, none⟩
      [⟨litUser, .nullc⟩] rfl (by decide)⟩
